import Mathlib

/-!
Verification of the mirdb LSM storage engine against its specification.

Shallow embedding of the relevant source components:
* `sstable_reader.rs` — the multi-level reader catalog (`SstableReader`):
  point-lookup search, top-level get, add/remove maintenance, compaction
  scoring.
* `wal.rs` — write-ahead log segments: append, byte-level record format,
  replay iteration.
* `memtable.rs` — the in-memory write buffer (`Memtable`).
* `block.rs` — checksummed block frame decoding (`Block::new_from_location`).

Keys and values are byte strings modelled as `List ℕ` (each element a byte),
ordered lexicographically — the order Rust uses to compare `&[u8]` slices.
Machine integers in the sources stay well inside `usize`, so sizes and
offsets are plain `ℕ`; where 32/64-bit wrapping matters (CRC masking,
fixed-width little-endian fields) the reduction `% 2^32` / `% 2^64` is
explicit.
-/

/-! ## The reader catalog (`sstable_reader.rs`)

A `TableReader` is an open SSTable file.  Its construction (`table_reader.rs`)
is outside the claims; the catalog only consumes the cached metadata
`file_name`, `min_key`, `max_key`, `size` and the point lookup
`TableReader::get`, which we keep abstract as the field `tbl`. -/

structure TableReader where
  file_name : String
  min_key : List ℕ
  max_key : List ℕ
  size : ℕ
  tbl : List ℕ → Option (List ℕ)

instance : Inhabited TableReader :=
  ⟨⟨"", [], [], 0, fun _ => none⟩⟩

/-- The catalog state of `SstableReader`: options fields used by the claims
plus the per-level reader vectors `readers_`. -/
structure SstableReader where
  max_level : ℕ
  l0_compaction_trigger : ℕ
  readers_ : List (List TableReader)

/-- The containment test of `search_readers`:
`reader.min_key() <= key && reader.max_key() >= key`. -/
def containsKeyB (r : TableReader) (key : List ℕ) : Bool :=
  decide (r.min_key ≤ key) && decide (key ≤ r.max_key)

/-- The binary-search loop of `SstableReader::search_readers` for levels ≥ 1:
`while left < right { let middle = (left+right+1)/2; if readers[middle].min_key() < key { left = middle } else { right = middle - 1 } }`. -/
def bsearchLoop (readers : List TableReader) (key : List ℕ) (left right : ℕ) : ℕ :=
  if _h : left < right then
    if (readers.getD ((left + right + 1) / 2) default).min_key < key then
      bsearchLoop readers key ((left + right + 1) / 2) right
    else
      bsearchLoop readers key left ((left + right + 1) / 2 - 1)
  else left
termination_by right - left
decreasing_by
  all_goals omega

/-- The forward scan of `search_readers` after the binary search: push every
reader whose range contains `key`, stop at the first reader with
`min_key > key`. -/
def scanForward (key : List ℕ) : List TableReader → List TableReader
  | [] => []
  | r :: rs =>
    if containsKeyB r key then r :: scanForward key rs
    else if key < r.min_key then []
    else scanForward key rs

/-- `SstableReader::search_readers`.  Level 0 scans readers newest-first and
keeps those whose range contains the key; levels ≥ 1 binary-search the sorted
vector and scan forward. -/
def SstableReader.search_readers (st : SstableReader) (level : ℕ) (key : List ℕ) :
    List TableReader :=
  if st.readers_.length ≤ level then []
  else
    let readers := st.readers_.getD level []
    if level = 0 then
      List.filter (fun r => containsKeyB r key) readers.reverse
    else if readers.isEmpty then []
    else
      scanForward key (readers.drop (bsearchLoop readers key 0 (readers.length - 1)))

/-- The inner loop of `SstableReader::get`: call `reader.get` on each
candidate and return the first `Some`. -/
def getFromReaders (key : List ℕ) : List TableReader → Option (List ℕ)
  | [] => none
  | r :: rs =>
    match r.tbl key with
    | some v => some v
    | none => getFromReaders key rs

/-- The outer loop of `SstableReader::get` over the remaining levels. -/
def SstableReader.getLevels (st : SstableReader) (key : List ℕ) :
    List ℕ → Option (List ℕ)
  | [] => none
  | i :: is =>
    match getFromReaders key (st.search_readers i key) with
    | some v => some v
    | none => st.getLevels key is

/-- `SstableReader::get`: `for i in 0..max_level { for reader in search_readers(i, key) { if let Some(v) = reader.get(key) { return v } } }`. -/
def SstableReader.get (st : SstableReader) (key : List ℕ) : Option (List ℕ) :=
  st.getLevels key (List.range st.max_level)

theorem getFromReaders_append (key : List ℕ) (l₁ l₂ : List TableReader) :
    getFromReaders key (l₁ ++ l₂) =
      match getFromReaders key l₁ with
      | some v => some v
      | none => getFromReaders key l₂ := by
  induction l₁ with
  | nil => rfl
  | cons r rs ih =>
    simp only [List.cons_append, getFromReaders]
    cases r.tbl key <;> simp [ih]

theorem getLevels_eq_flatten (st : SstableReader) (key : List ℕ) (is : List ℕ) :
    st.getLevels key is =
      getFromReaders key ((is.map (fun i => st.search_readers i key)).flatten) := by
  induction is with
  | nil => rfl
  | cons i rest ih =>
    simp only [SstableReader.getLevels, List.map_cons, List.flatten_cons,
      getFromReaders_append]
    cases getFromReaders key (st.search_readers i key) <;> simp [ih]

/-- Claim C1: `SstableReader::get` consults levels `0..max_level` in order,
calling `reader.get` on each candidate of `search_readers` and returning the
first non-`None` value; and since level-0 candidates are produced
newest-inserted-first, whenever the most recently added level-0 reader whose
range contains the key yields a value, that value is the result. -/
theorem sstable_get_first_some_and_l0_recency (st : SstableReader) (key : List ℕ) :
    st.get key =
      getFromReaders key
        (((List.range st.max_level).map (fun i => st.search_readers i key)).flatten)
    ∧ ∀ r v, 0 < st.max_level →
        ((st.readers_.getD 0 []).filter (fun x => containsKeyB x key)).getLast? = some r →
        r.tbl key = some v →
        st.get key = some v := by
  constructor
  · exact getLevels_eq_flatten st key (List.range st.max_level)
  · intro r v hml hlast htbl
    obtain ⟨m, hm⟩ : ∃ m, st.max_level = m + 1 := ⟨st.max_level - 1, by omega⟩
    have hne : st.readers_.length ≠ 0 := by
      intro h0
      have : st.readers_ = [] := List.length_eq_zero.mp h0
      simp [this] at hlast
    have hsearch : st.search_readers 0 key =
        ((st.readers_.getD 0 []).filter (fun x => containsKeyB x key)).reverse := by
      unfold SstableReader.search_readers
      rw [if_neg (by omega)]
      simp [List.filter_reverse]
    have hrev : ((st.readers_.getD 0 []).filter (fun x => containsKeyB x key)).reverse.head?
        = some r := by
      rw [List.head?_reverse]
      exact hlast
    obtain ⟨t, ht⟩ :
        ∃ t, ((st.readers_.getD 0 []).filter (fun x => containsKeyB x key)).reverse
          = r :: t := by
      cases hc : ((st.readers_.getD 0 []).filter (fun x => containsKeyB x key)).reverse with
      | nil => rw [hc] at hrev; simp at hrev
      | cons a t =>
        rw [hc] at hrev
        simp at hrev
        exact ⟨t, by rw [hrev]⟩
    show st.getLevels key (List.range st.max_level) = some v
    rw [hm, List.range_succ_eq_map]
    simp only [SstableReader.getLevels, hsearch, ht, getFromReaders, htbl]

/-- Concrete catalog for the C1 witness: two overlapping level-0 readers,
the newer one (`c1ReaderB`, inserted last) also containing the key. -/
def c1ReaderA : TableReader :=
  ⟨"000001.sst", [2], [9], 100, fun _ => some [1]⟩

def c1ReaderB : TableReader :=
  ⟨"000002.sst", [4], [9], 100, fun _ => some [2]⟩

def c1State : SstableReader :=
  ⟨1, 4, [[c1ReaderA, c1ReaderB]]⟩

/-- Witness for C1 at a concrete catalog: the key `[5]` is contained in both
level-0 readers and the value of the most recently added one is returned. -/
theorem sstable_get_first_some_and_l0_recency_witness :
    (0 < c1State.max_level
      ∧ ((c1State.readers_.getD 0 []).filter (fun x => containsKeyB x [5])).getLast?
          = some c1ReaderB
      ∧ c1ReaderB.tbl [5] = some [2])
    ∧ c1State.get [5] = some [2] :=
  ⟨⟨by decide, rfl, rfl⟩,
    (sstable_get_first_some_and_l0_recency c1State [5]).2 c1ReaderB [2]
      (by decide) rfl rfl⟩

/-! ## C2: `search_readers` at levels ≥ 1 -/

/-- Sortedness relation of a level ≥ 1: readers ordered by `min_key`. -/
def minKeyLe (a b : TableReader) : Prop := a.min_key ≤ b.min_key

instance : DecidableRel minKeyLe :=
  fun a b => inferInstanceAs (Decidable (a.min_key ≤ b.min_key))

/-- Disjointness of two consecutive readers at a level ≥ 1:
`max_key[i] < min_key[i+1]`. -/
def rangeBelow (a b : TableReader) : Prop := a.max_key < b.min_key

instance : DecidableRel rangeBelow :=
  fun a b => inferInstanceAs (Decidable (a.max_key < b.min_key))

theorem sorted_minKey_getD {l : List TableReader}
    (hsort : List.Sorted minKeyLe l) {i j : ℕ} (hij : i ≤ j) (hj : j < l.length) :
    (l.getD i default).min_key ≤ (l.getD j default).min_key := by
  rcases Nat.eq_or_lt_of_le hij with rfl | hlt
  · exact le_refl _
  · have hi : i < l.length := lt_trans hlt hj
    rw [List.getD_eq_getElem l default hi, List.getD_eq_getElem l default hj]
    exact hsort.rel_get_of_lt (by simpa using hlt)

theorem bsearchLoop_spec (l : List TableReader) (key : List ℕ)
    (hsort : List.Sorted minKeyLe l) :
    ∀ n left right, right - left = n → right < l.length → left ≤ right →
    (left = 0 ∨ (l.getD left default).min_key < key) →
    (∀ j, right < j → j < l.length → ¬ (l.getD j default).min_key < key) →
    (left ≤ bsearchLoop l key left right ∧ bsearchLoop l key left right ≤ right ∧
     (bsearchLoop l key left right = 0 ∨
       (l.getD (bsearchLoop l key left right) default).min_key < key) ∧
     (∀ j, bsearchLoop l key left right < j → j < l.length →
       ¬ (l.getD j default).min_key < key)) := by
  intro n
  induction n using Nat.strong_induction_on with
  | _ n ih =>
    intro left right hn hrlen hlr hleft hright
    rw [bsearchLoop]
    by_cases hcond : left < right
    · rw [dif_pos hcond]
      by_cases hmid : (l.getD ((left + right + 1) / 2) default).min_key < key
      · rw [if_pos hmid]
        have h1 : left < (left + right + 1) / 2 := by omega
        have h2 : (left + right + 1) / 2 ≤ right := by omega
        have := ih (right - (left + right + 1) / 2) (by omega)
          ((left + right + 1) / 2) right rfl hrlen h2 (Or.inr hmid) hright
        exact ⟨by omega, this.2.1, this.2.2.1, this.2.2.2⟩
      · rw [if_neg hmid]
        have h1 : left < (left + right + 1) / 2 := by omega
        have h2 : (left + right + 1) / 2 ≤ right := by omega
        have hright' : ∀ j, (left + right + 1) / 2 - 1 < j → j < l.length →
            ¬ (l.getD j default).min_key < key := by
          intro j hj hjlen hlt
          by_cases hjr : right < j
          · exact hright j hjr hjlen hlt
          · exact hmid (lt_of_le_of_lt
              (sorted_minKey_getD hsort (by omega) hjlen) hlt)
        have := ih ((left + right + 1) / 2 - 1 - left) (by omega)
          left ((left + right + 1) / 2 - 1) rfl (by omega) (by omega) hleft hright'
        exact ⟨this.1, by omega, this.2.2.1, this.2.2.2⟩
    · rw [dif_neg hcond]
      have hleq : left = right := by omega
      exact ⟨le_refl _, le_of_eq hleq, hleft,
        fun j hj hjl => hright j (by omega) hjl⟩

theorem containsKeyB_iff (r : TableReader) (key : List ℕ) :
    containsKeyB r key = true ↔ r.min_key ≤ key ∧ key ≤ r.max_key := by
  simp [containsKeyB]

theorem scanForward_eq_filter (key : List ℕ) (l : List TableReader)
    (hsort : List.Sorted minKeyLe l) :
    scanForward key l = l.filter (fun r => containsKeyB r key) := by
  induction l with
  | nil => rfl
  | cons r rs ih =>
    rw [scanForward, List.filter_cons]
    by_cases hc : containsKeyB r key
    · rw [if_pos hc, if_pos hc, ih hsort.of_cons]
    · rw [if_neg hc, if_neg hc]
      by_cases hbreak : key < r.min_key
      · rw [if_pos hbreak]
        symm
        rw [List.filter_eq_nil_iff]
        intro x hx
        have hrx : r.min_key ≤ x.min_key := List.rel_of_sorted_cons hsort x hx
        rw [containsKeyB_iff]
        rintro ⟨h1, _⟩
        exact absurd (lt_of_lt_of_le (lt_of_lt_of_le hbreak hrx) h1) (lt_irrefl key)
      · rw [if_neg hbreak, ih hsort.of_cons]

theorem filter_contains_length_le_one (key : List ℕ) (l : List TableReader)
    (hsort : List.Sorted minKeyLe l) (hdisj : List.Chain' rangeBelow l) :
    (l.filter (fun r => containsKeyB r key)).length ≤ 1 := by
  induction l with
  | nil => simp
  | cons r rs ih =>
    rw [List.filter_cons]
    by_cases hc : containsKeyB r key
    · rw [if_pos hc]
      have hkey : key ≤ r.max_key := ((containsKeyB_iff r key).mp hc).2
      have hnil : rs.filter (fun x => containsKeyB x key) = [] := by
        rw [List.filter_eq_nil_iff]
        intro x hx
        cases rs with
        | nil => simp at hx
        | cons b t =>
          have hrb : r.max_key < b.min_key := (List.chain'_cons.mp hdisj).1
          have hbx : b.min_key ≤ x.min_key := by
            rcases List.mem_cons.mp hx with hx1 | hx2
            · simp [hx1]
            · exact List.rel_of_sorted_cons hsort.of_cons x hx2
          rw [containsKeyB_iff]
          rintro ⟨h1, _⟩
          exact absurd h1
            (not_le.mpr (lt_of_le_of_lt hkey (lt_of_lt_of_le hrb hbx)))
      rw [hnil]
      simp
    · rw [if_neg hc]
      exact ih hsort.of_cons hdisj.tail

theorem chain'_rangeBelow_getD {l : List TableReader}
    (hdisj : List.Chain' rangeBelow l) {j : ℕ} (hj : j + 1 < l.length) :
    (l.getD j default).max_key < (l.getD (j + 1) default).min_key := by
  rw [List.getD_eq_getElem l default (by omega), List.getD_eq_getElem l default hj]
  exact List.chain'_iff_get.mp hdisj j (by omega)

/-- Claim C2: At a level ≥ 1 whose readers are sorted by `min_key` and pairwise
disjoint, `search_readers` returns exactly the readers whose
`[min_key, max_key]` range contains the key, and that result has at most one
element. -/
theorem search_readers_exact_level_ge1 (st : SstableReader) (level : ℕ) (key : List ℕ)
    (hlevel : 1 ≤ level) (hlen : level < st.readers_.length)
    (hsort : List.Sorted minKeyLe (st.readers_.getD level []))
    (hdisj : List.Chain' rangeBelow (st.readers_.getD level [])) :
    st.search_readers level key
      = (st.readers_.getD level []).filter (fun r => containsKeyB r key)
    ∧ (st.search_readers level key).length ≤ 1 := by
  have hmain : st.search_readers level key
      = (st.readers_.getD level []).filter (fun r => containsKeyB r key) := by
    unfold SstableReader.search_readers
    rw [if_neg (not_le.mpr hlen)]
    simp only
    rw [if_neg (by omega : ¬ level = 0)]
    by_cases hemp : (st.readers_.getD level []).isEmpty
    · rw [if_pos hemp, List.isEmpty_iff.mp hemp]
      rfl
    · rw [if_neg hemp]
      have hlpos : 0 < (st.readers_.getD level []).length := by
        cases hc : st.readers_.getD level [] with
        | nil => rw [hc] at hemp; simp at hemp
        | cons a t => simp [hc]
      obtain ⟨-, hple, hpleft, -⟩ :=
        bsearchLoop_spec (st.readers_.getD level []) key hsort
          ((st.readers_.getD level []).length - 1 - 0) 0
          ((st.readers_.getD level []).length - 1) rfl (by omega) (by omega)
          (Or.inl rfl) (by intro j hj hjl hk; omega)
      rw [scanForward_eq_filter key _
        (List.Pairwise.sublist (List.drop_sublist _ _) hsort)]
      conv_rhs => rw [← List.take_append_drop
        (bsearchLoop (st.readers_.getD level []) key 0
          ((st.readers_.getD level []).length - 1)) (st.readers_.getD level []),
        List.filter_append]
      have htake : ((st.readers_.getD level []).take
          (bsearchLoop (st.readers_.getD level []) key 0
            ((st.readers_.getD level []).length - 1))).filter
          (fun r => containsKeyB r key) = [] := by
        rw [List.filter_eq_nil_iff]
        intro a ha
        obtain ⟨i, hi, hia⟩ := List.mem_iff_getElem.mp ha
        have hilen : i < (st.readers_.getD level []).length := by
          rw [List.length_take] at hi; omega
        have hip : i < bsearchLoop (st.readers_.getD level []) key 0
            ((st.readers_.getD level []).length - 1) := by
          rw [List.length_take] at hi; omega
        rw [List.getElem_take] at hia
        rcases hpleft with hp0 | hpk
        · omega
        · rw [containsKeyB_iff]
          rintro ⟨-, h2⟩
          have hchain : ((st.readers_.getD level []).getD i default).max_key
              < ((st.readers_.getD level []).getD (i + 1) default).min_key :=
            chain'_rangeBelow_getD hdisj (by omega)
          have hsorted : ((st.readers_.getD level []).getD (i + 1) default).min_key
              ≤ ((st.readers_.getD level []).getD
                  (bsearchLoop (st.readers_.getD level []) key 0
                    ((st.readers_.getD level []).length - 1)) default).min_key :=
            sorted_minKey_getD hsort (by omega) (by omega)
          rw [List.getD_eq_getElem _ default hilen, hia] at hchain
          exact absurd (h2.trans_lt (hchain.trans_le (le_of_lt (hsorted.trans_lt hpk))))
            (lt_irrefl key)
      rw [htake, List.nil_append]
  refine ⟨hmain, ?_⟩
  rw [hmain]
  exact filter_contains_length_le_one key _ hsort hdisj

/-- Concrete catalog for the C2 witness: two disjoint sorted readers at
level 1. -/
def c2ReaderA : TableReader :=
  ⟨"000003.sst", [0], [3], 10, fun _ => none⟩

def c2ReaderB : TableReader :=
  ⟨"000004.sst", [5], [9], 10, fun _ => none⟩

def c2State : SstableReader :=
  ⟨2, 4, [[], [c2ReaderA, c2ReaderB]]⟩

/-- Witness for C2: at level 1 of `c2State`, the key `[6]` selects exactly
the one reader whose range contains it. -/
theorem search_readers_exact_level_ge1_witness :
    (1 ≤ 1 ∧ 1 < c2State.readers_.length
      ∧ List.Sorted minKeyLe (c2State.readers_.getD 1 [])
      ∧ List.Chain' rangeBelow (c2State.readers_.getD 1 []))
    ∧ c2State.search_readers 1 [6] = [c2ReaderB]
    ∧ (c2State.search_readers 1 [6]).length ≤ 1 := by
  have hs : List.Sorted minKeyLe (c2State.readers_.getD 1 []) := by
    show List.Sorted minKeyLe [c2ReaderA, c2ReaderB]
    exact List.sorted_cons.mpr ⟨by intro b hb; simp at hb; subst hb; decide,
      List.sorted_singleton _⟩
  have hd : List.Chain' rangeBelow (c2State.readers_.getD 1 []) := by
    show List.Chain' rangeBelow [c2ReaderA, c2ReaderB]
    exact List.chain'_cons.mpr ⟨by decide, List.chain'_singleton _⟩
  have hthm := search_readers_exact_level_ge1 c2State 1 [6] (le_refl 1)
    (by decide) hs hd
  exact ⟨⟨le_refl 1, by decide, hs, hd⟩, hthm.1.trans rfl, hthm.2⟩

/-! ## C10: catalog maintenance at levels ≥ 1

`add_readers` pushes each reader and, at levels ≥ 1, re-sorts the vector by
`min_key` (`sort_readers`); `remove_by_file_names` retains the readers whose
file name is not in the removal set. -/

instance : IsTotal TableReader minKeyLe :=
  ⟨fun a b => le_total a.min_key b.min_key⟩

instance : IsTrans TableReader minKeyLe :=
  ⟨fun _ _ _ hab hbc => le_trans hab hbc⟩

/-- `sort_readers`: `readers.sort_by(|a, b| a.min_key().cmp(&b.min_key()))`.
Modelled as an insertion sort by `min_key` (Rust's `sort_by` is a stable
sort; no property below depends on the order of `min_key` ties). -/
def sort_readers (readers : List TableReader) : List TableReader :=
  List.insertionSort minKeyLe readers

/-- The per-level effect of `SstableReader::add_readers` at a level ≥ 1:
each reader is pushed, then the vector is sorted by `min_key`. -/
def addReadersLevel (cur : List TableReader) (new : List TableReader) :
    List TableReader :=
  new.foldl (fun acc r => sort_readers (acc ++ [r])) cur

/-- The per-level effect of `SstableReader::remove_by_file_names` on the
reader vector: `readers.retain(|x| !file_names.contains(x.file_name()))`. -/
def removeByFileNamesLevel (names : List String) (cur : List TableReader) :
    List TableReader :=
  cur.filter (fun r => !names.contains r.file_name)

/-- One catalog mutation at a fixed level ≥ 1. -/
inductive CatalogOp where
  | add (readers : List TableReader)
  | remove (names : List String)

def applyCatalogOp (cur : List TableReader) : CatalogOp → List TableReader
  | CatalogOp.add rs => addReadersLevel cur rs
  | CatalogOp.remove ns => removeByFileNamesLevel ns cur

def applyCatalogOps (cur : List TableReader) (ops : List CatalogOp) :
    List TableReader :=
  ops.foldl applyCatalogOp cur

/-- Key ranges of two readers do not overlap (in either order). -/
def rangesDisjoint (a b : TableReader) : Prop :=
  a.max_key < b.min_key ∨ b.max_key < a.min_key

instance : DecidableRel rangesDisjoint :=
  fun a b => inferInstanceAs (Decidable (_ ∨ _))

theorem sorted_addReadersLevel (cur : List TableReader) (new : List TableReader)
    (hcur : List.Sorted minKeyLe cur) :
    List.Sorted minKeyLe (addReadersLevel cur new) := by
  induction new generalizing cur with
  | nil => exact hcur
  | cons r rs ih =>
    exact ih (sort_readers (cur ++ [r])) (List.sorted_insertionSort minKeyLe _)

theorem sorted_applyCatalogOps (init : List TableReader) (ops : List CatalogOp)
    (hinit : List.Sorted minKeyLe init) :
    List.Sorted minKeyLe (applyCatalogOps init ops) := by
  induction ops generalizing init with
  | nil => exact hinit
  | cons op rest ih =>
    cases op with
    | add rs => exact ih _ (sorted_addReadersLevel init rs hinit)
    | remove ns => exact ih _ (List.Pairwise.filter _ hinit)

theorem sorted_pairwise_disjoint_chain (l : List TableReader)
    (hvalid : ∀ r ∈ l, r.min_key ≤ r.max_key)
    (hsort : List.Sorted minKeyLe l)
    (hpd : List.Pairwise rangesDisjoint l) :
    List.Chain' rangeBelow l := by
  induction l with
  | nil => exact List.chain'_nil
  | cons a t ih =>
    cases t with
    | nil => exact List.chain'_singleton a
    | cons b t' =>
      rw [List.chain'_cons]
      constructor
      · have hab : rangesDisjoint a b := (List.pairwise_cons.mp hpd).1 b (by simp)
        rcases hab with h | h
        · exact h
        · have h1 : a.min_key ≤ b.min_key :=
            List.rel_of_sorted_cons hsort b (by simp)
          have h2 : b.min_key ≤ b.max_key := hvalid b (by simp)
          exact absurd (lt_of_le_of_lt (h2.trans' h1) h) (lt_irrefl _)
      · exact ih (fun r hr => hvalid r (List.mem_cons_of_mem a hr))
          hsort.of_cons (List.pairwise_cons.mp hpd).2

/-- Claim C10, amended: After any sequence of `add_readers` /
`remove_by_file_names` operations at a level ≥ 1 (starting from a vector
sorted by `min_key`), the readers remain sorted by `min_key`; and whenever
the readers present at the level have pairwise disjoint key ranges,
consecutive readers satisfy `max_key[i] < min_key[i+1]`.  (The code never
enforces disjointness: adding overlapping readers is accepted, see the
counterexample.) -/
theorem catalog_ops_sorted_and_disjoint (init : List TableReader)
    (ops : List CatalogOp) (hinit : List.Sorted minKeyLe init) :
    List.Sorted minKeyLe (applyCatalogOps init ops)
    ∧ ((∀ r ∈ applyCatalogOps init ops, r.min_key ≤ r.max_key) →
        List.Pairwise rangesDisjoint (applyCatalogOps init ops) →
        List.Chain' rangeBelow (applyCatalogOps init ops)) :=
  ⟨sorted_applyCatalogOps init ops hinit,
    fun hvalid hpd =>
      sorted_pairwise_disjoint_chain _ hvalid
        (sorted_applyCatalogOps init ops hinit) hpd⟩

/-- Overlapping readers for the C10 counterexample. -/
def c10ReaderA : TableReader :=
  ⟨"000005.sst", [0], [5], 10, fun _ => none⟩

def c10ReaderB : TableReader :=
  ⟨"000006.sst", [1], [3], 10, fun _ => none⟩

/-- Counterexample to C10 as stated: `add_readers` happily inserts two
readers with overlapping ranges at a level ≥ 1, and the resulting vector
violates `max_key[i] < min_key[i+1]`. -/
theorem catalog_ops_disjoint_counterexample :
    ¬ List.Chain' rangeBelow
        (applyCatalogOps [] [CatalogOp.add [c10ReaderA, c10ReaderB]]) := by
  have hres : applyCatalogOps [] [CatalogOp.add [c10ReaderA, c10ReaderB]]
      = [c10ReaderA, c10ReaderB] := rfl
  rw [hres, List.chain'_cons]
  rintro ⟨h, -⟩
  exact absurd h (by decide)

/-- Disjoint readers for the C10 witness. -/
def c10ReaderC : TableReader :=
  ⟨"000007.sst", [0], [3], 10, fun _ => none⟩

def c10ReaderD : TableReader :=
  ⟨"000008.sst", [5], [9], 10, fun _ => none⟩

/-- Witness for the amended C10 at a concrete op sequence. -/
theorem catalog_ops_sorted_and_disjoint_witness :
    List.Sorted minKeyLe ([] : List TableReader)
    ∧ List.Sorted minKeyLe
        (applyCatalogOps [] [CatalogOp.add [c10ReaderD, c10ReaderC]])
    ∧ List.Chain' rangeBelow
        (applyCatalogOps [] [CatalogOp.add [c10ReaderD, c10ReaderC]]) := by
  have hthm := catalog_ops_sorted_and_disjoint []
    [CatalogOp.add [c10ReaderD, c10ReaderC]] List.sorted_nil
  have hres : applyCatalogOps [] [CatalogOp.add [c10ReaderD, c10ReaderC]]
      = [c10ReaderC, c10ReaderD] := rfl
  refine ⟨List.sorted_nil, hthm.1, hthm.2 ?_ ?_⟩
  · rw [hres]
    intro r hr
    rcases List.mem_cons.mp hr with h | h
    · subst h; decide
    · rcases List.mem_cons.mp h with h2 | h2
      · subst h2; decide
      · simp at h2
  · rw [hres]
    exact List.pairwise_cons.mpr ⟨by intro b hb; simp at hb; subst hb; left; decide,
      List.pairwise_singleton _ _⟩

/-! ## C8: `remove_by_file_names` under manifest-flush failure -/

/-- `FileMeta { file_name }` of the manifest. -/
structure FileMeta where
  file_name : String
deriving DecidableEq

/-- The `SstableReader` state as far as `remove_by_file_names` touches it:
the per-level reader vectors and the in-memory manifest metas of
`ManifestBuilder`. -/
structure SstableReaderM where
  max_level : ℕ
  readers_ : List (List TableReader)
  manifest_ : List (List FileMeta)

/-- `SstableReader::remove_by_file_names`, with the outcome of the manifest
flush (file I/O) supplied as `flushOk`.  The source first removes the metas
from the in-memory manifest, then filters the reader vector in place, then
flushes; only if the flush succeeded does it unlink the files.  Returns the
new state, the list of files unlinked, and whether the call succeeded. -/
def remove_by_file_names (st : SstableReaderM) (level : ℕ)
    (names : List String) (flushOk : Bool) :
    SstableReaderM × List String × Bool :=
  let st' : SstableReaderM :=
    { st with
      manifest_ := st.manifest_.set level
        ((st.manifest_.getD level []).filter
          (fun fm => !names.contains fm.file_name)),
      readers_ := st.readers_.set level
        ((st.readers_.getD level []).filter
          (fun r => !names.contains r.file_name)) }
  if flushOk then (st', names, true) else (st', [], false)

/-- Claim C8, amended: If the manifest flush inside `remove_by_file_names`
fails, the operation aborts with no SSTable file unlinked — but the
in-memory catalog is NOT rolled back: the readers selected for removal are
already gone from the reader vector (and their metas from the in-memory
manifest) when the failed call returns. -/
theorem remove_by_file_names_flush_failure (st : SstableReaderM) (level : ℕ)
    (names : List String) (hlevel : level < st.readers_.length) :
    (remove_by_file_names st level names false).2.1 = []
    ∧ (remove_by_file_names st level names false).2.2 = false
    ∧ ∀ r ∈ (remove_by_file_names st level names false).1.readers_.getD level [],
        names.contains r.file_name = false := by
  refine ⟨rfl, rfl, ?_⟩
  intro r hr
  have hset : (remove_by_file_names st level names false).1.readers_.getD level []
      = (st.readers_.getD level []).filter (fun r => !names.contains r.file_name) := by
    show ((st.readers_.set level _).getD level []) = _
    rw [List.getD_eq_getElem _ _ (by simpa using hlevel)]
    exact List.getElem_set_self _
  rw [hset] at hr
  have := (List.mem_filter.mp hr).2
  simpa using this

/-- Reader and state for the C8 counterexample and witness. -/
def c8Reader : TableReader :=
  ⟨"000009.sst", [0], [9], 10, fun _ => none⟩

def c8State : SstableReaderM :=
  ⟨2, [[], [c8Reader]], [[], [⟨"000009.sst"⟩]]⟩

/-- Counterexample to C8 as stated: before the call the reader selected for
removal is present at level 1; after the call whose manifest flush failed it
is no longer in the in-memory catalog (no rollback), although — as the claim
also says — no file was unlinked. -/
theorem remove_by_file_names_no_rollback_counterexample :
    c8Reader ∈ c8State.readers_.getD 1 []
    ∧ (remove_by_file_names c8State 1 ["000009.sst"] false).1.readers_.getD 1 [] = []
    ∧ (remove_by_file_names c8State 1 ["000009.sst"] false).2.1 = [] :=
  ⟨List.mem_singleton.mpr rfl, rfl, rfl⟩

/-- Witness for the amended C8 at the concrete state. -/
theorem remove_by_file_names_flush_failure_witness :
    1 < c8State.readers_.length
    ∧ ((remove_by_file_names c8State 1 ["000009.sst"] false).2.1 = []
       ∧ (remove_by_file_names c8State 1 ["000009.sst"] false).2.2 = false
       ∧ ∀ r ∈ (remove_by_file_names c8State 1 ["000009.sst"] false).1.readers_.getD 1 [],
           (["000009.sst"] : List String).contains r.file_name = false) :=
  ⟨by decide, remove_by_file_names_flush_failure c8State 1 ["000009.sst"] (by decide)⟩

/-! ## C9: compaction scoring (`compute_compaction_levels`)

The source computes scores in `f64`; on the ratios involved the arithmetic
is exact, and we model it with exact rationals `ℚ`. -/

/-- `SstableReader::max_bytes_for_level`:
`let mut result = 10. * 1_048_576.; while level > 1 { result *= 10.; level -= 1 }`. -/
def maxBytesForLevelLoop (level : ℕ) (result : ℚ) : ℚ :=
  if 1 < level then maxBytesForLevelLoop (level - 1) (result * 10) else result
termination_by level
decreasing_by
  omega

def max_bytes_for_level (level : ℕ) : ℚ :=
  maxBytesForLevelLoop level (10 * 1048576)

/-- The per-level score of `compute_compaction_levels`:
level 0 is `readers.len() / l0_compaction_trigger`, level ≥ 1 is
`readers.iter().map(TableReader::size).sum() / max_bytes_for_level(level)`. -/
def compactionScore (st : SstableReader) (i : ℕ) : ℚ :=
  if i = 0 then
    ((st.readers_.getD 0 []).length : ℚ) / (st.l0_compaction_trigger : ℚ)
  else
    (((st.readers_.getD i []).map TableReader.size).sum : ℚ) / max_bytes_for_level i

/-- Descending-score order used by
`scores.sort_by(|a, b| b.1.partial_cmp(&a.1).unwrap())`. -/
def scoreGe (a b : ℕ × ℚ) : Prop := b.2 ≤ a.2

instance : DecidableRel scoreGe :=
  fun a b => inferInstanceAs (Decidable (b.2 ≤ a.2))

instance : IsTotal (ℕ × ℚ) scoreGe :=
  ⟨fun a b => le_total b.2 a.2⟩

instance : IsTrans (ℕ × ℚ) scoreGe :=
  ⟨fun _ _ _ h1 h2 => le_trans h2 h1⟩

/-- `SstableReader::compute_compaction_levels`: collect `(level, score)` for
every level whose score is ≥ 1, sort by descending score (a stable sort,
modelled as insertion sort), and return the levels. -/
def compute_compaction_levels (st : SstableReader) : List ℕ :=
  (List.insertionSort scoreGe
    ((List.range st.max_level).filterMap
      (fun i => if 1 ≤ compactionScore st i
        then some (i, compactionScore st i) else none))).map Prod.fst

theorem map_fst_filterMap_scores (st : SstableReader) (l : List ℕ) :
    ((l.filterMap
        (fun i => if 1 ≤ compactionScore st i
          then some (i, compactionScore st i) else none)).map Prod.fst)
      = l.filter (fun i => decide (1 ≤ compactionScore st i)) := by
  induction l with
  | nil => rfl
  | cons i rest ih =>
    by_cases hc : 1 ≤ compactionScore st i
    · simp [List.filterMap_cons, List.filter_cons, hc, ih]
    · simp [List.filterMap_cons, List.filter_cons, hc, ih]

theorem snd_eq_score_of_mem_scores (st : SstableReader) (p : ℕ × ℚ)
    (hp : p ∈ (List.range st.max_level).filterMap
      (fun i => if 1 ≤ compactionScore st i
        then some (i, compactionScore st i) else none)) :
    p.2 = compactionScore st p.1 := by
  obtain ⟨i, -, hi⟩ := List.mem_filterMap.mp hp
  by_cases hc : 1 ≤ compactionScore st i
  · rw [if_pos hc] at hi
    cases hi
    rfl
  · rw [if_neg hc] at hi
    cases hi

theorem maxBytesForLevelLoop_closed (L : ℕ) (hL : 1 ≤ L) :
    ∀ r : ℚ, maxBytesForLevelLoop L r = r * 10 ^ (L - 1) := by
  induction L, hL using Nat.le_induction with
  | base =>
    intro r
    rw [maxBytesForLevelLoop]
    norm_num
  | succ L hL ih =>
    intro r
    rw [maxBytesForLevelLoop, if_pos (by omega)]
    have h1 : L + 1 - 1 = L := by omega
    rw [h1, ih (r * 10)]
    have h2 : L = (L - 1) + 1 := by omega
    calc r * 10 * 10 ^ (L - 1) = r * 10 ^ ((L - 1) + 1) := by ring
    _ = r * 10 ^ L := by rw [← h2]

/-- Claim C9: `compute_compaction_levels` returns exactly the levels whose
score is ≥ 1, sorted by descending score, where the level-0 score is
`count(readers) / l0_compaction_trigger` and the score of a level L ≥ 1 is
the summed reader sizes divided by `10 MiB * 10^(L-1)`. -/
theorem compute_compaction_levels_spec (st : SstableReader)
    (_hlen : st.readers_.length = st.max_level)
    (_htrig : 0 < st.l0_compaction_trigger) :
    (compute_compaction_levels st).Perm
        ((List.range st.max_level).filter
          (fun i => decide (1 ≤ compactionScore st i)))
    ∧ List.Sorted (fun a b : ℚ => b ≤ a)
        ((compute_compaction_levels st).map (compactionScore st))
    ∧ compactionScore st 0
        = ((st.readers_.getD 0 []).length : ℚ) / (st.l0_compaction_trigger : ℚ)
    ∧ ∀ L, 1 ≤ L →
        compactionScore st L
          = (((st.readers_.getD L []).map TableReader.size).sum : ℚ)
              / (10 * 1048576 * 10 ^ (L - 1)) := by
  refine ⟨?_, ?_, ?_, ?_⟩
  · rw [← map_fst_filterMap_scores st (List.range st.max_level)]
    exact List.Perm.map Prod.fst (List.perm_insertionSort scoreGe _)
  · have hsorted := List.sorted_insertionSort scoreGe
      ((List.range st.max_level).filterMap
        (fun i => if 1 ≤ compactionScore st i
          then some (i, compactionScore st i) else none))
    unfold compute_compaction_levels
    rw [List.map_map]
    refine List.pairwise_map.mpr ?_
    refine List.Pairwise.imp_of_mem ?_ hsorted
    intro a b ha hb hab
    have hmema := (List.perm_insertionSort scoreGe _).mem_iff.mp ha
    have hmemb := (List.perm_insertionSort scoreGe _).mem_iff.mp hb
    have h2a := snd_eq_score_of_mem_scores st a hmema
    have h2b := snd_eq_score_of_mem_scores st b hmemb
    show compactionScore st b.1 ≤ compactionScore st a.1
    rw [← h2a, ← h2b]
    exact hab
  · rfl
  · intro L hL
    unfold compactionScore
    rw [if_neg (by omega), max_bytes_for_level,
      maxBytesForLevelLoop_closed L hL]

/-- Catalog for the C9 witness: one level-0 reader with trigger 1, so level 0
scores 1/1 = 1 and is due for compaction. -/
def c9Reader : TableReader :=
  ⟨"000010.sst", [0], [9], 100, fun _ => none⟩

def c9State : SstableReader :=
  ⟨2, 1, [[c9Reader], []]⟩

/-- Witness for C9 at a concrete catalog. -/
theorem compute_compaction_levels_spec_witness :
    (c9State.readers_.length = c9State.max_level
      ∧ 0 < c9State.l0_compaction_trigger)
    ∧ (compute_compaction_levels c9State).Perm
        ((List.range c9State.max_level).filter
          (fun i => decide (1 ≤ compactionScore c9State i))) :=
  ⟨⟨rfl, by decide⟩, (compute_compaction_levels_spec c9State rfl (by decide)).1⟩

/-! ## C7: `Memtable::is_full` (`memtable.rs`)

The skip list behind the memtable lives in the external `skip_list` crate;
the claim touches only `insert`, `is_full` and the (never updated) size
accounting, so the map is modelled as an association list with
insert-replaces semantics. -/

structure Memtable where
  max_size_ : ℕ
  size_ : ℕ
  map_ : List (List ℕ × List ℕ)

/-- `Memtable::new(max_size, max_height)`; the skip-list height does not
appear in the claim and is dropped by the embedding. -/
def Memtable.new (max_size : ℕ) : Memtable :=
  ⟨max_size, 0, []⟩

def assocInsert (k v : List ℕ) : List (List ℕ × List ℕ) → List (List ℕ × List ℕ)
  | [] => [(k, v)]
  | (k', v') :: rest =>
    if k' = k then (k, v) :: rest else (k', v') :: assocInsert k v rest

/-- `Memtable::insert` forwards to `self.map_.insert(k, v)` and — notably —
never touches `size_`. -/
def Memtable.insert (m : Memtable) (k v : List ℕ) : Memtable :=
  { m with map_ := assocInsert k v m.map_ }

/-- `Memtable::is_full`: the source body is literally `return false;`. -/
def Memtable.is_full (_m : Memtable) : Bool :=
  false

/-- Claim C7, against the code: The spec says `is_full()` becomes true once
the accumulated byte charge of the inserted entries reaches
`memtable_max_size`; the code returns `false` unconditionally and `insert`
never accumulates any charge.  Here a memtable with `memtable_max_size = 1`
still reports not-full after inserts whose total charge far exceeds 1. -/
theorem memtable_is_full_code_bug :
    ((Memtable.new 1).insert [97] [98] |>.insert [99] [100]).is_full = false
    ∧ ∀ m : Memtable, m.is_full = false :=
  ⟨rfl, fun _ => rfl⟩

/-! ## The WAL (`wal.rs`)

`LogEntry<Vec<u8>, Vec<u8>>` is a `(key, Option<value>)` pair.
`bincode::serialize` (the legacy fixint configuration) lays it out as
`u64le(key.len) | key | tag(u8) | [u64le(val.len) | val]`; a segment record
is `record_len(varint) | record_bytes`.  File contents are byte lists. -/

structure LogEntry where
  k : List ℕ
  v : Option (List ℕ)
deriving DecidableEq

/-- LEB128 varint encoding, as written by `write_varint`
(`integer-encoding` crate). -/
def varintEnc (n : ℕ) : List ℕ :=
  if n < 128 then [n] else (n % 128 + 128) :: varintEnc (n / 128)
termination_by n
decreasing_by
  exact Nat.div_lt_self (by omega) (by omega)

/-- LEB128 varint decoding, as read by `read_varint`: the value and the
number of bytes consumed, or `none` when the input ends inside the varint. -/
def varintDec : List ℕ → Option (ℕ × ℕ)
  | [] => none
  | b :: rest =>
    if b < 128 then some (b, 1)
    else
      match varintDec rest with
      | some (v, c) => some (b % 128 + 128 * v, c + 1)
      | none => none

/-- Little-endian byte decoding (`u64`/`u32` `decode_fixed`). -/
def decodeLE : List ℕ → ℕ
  | [] => 0
  | b :: rest => b + 256 * decodeLE rest

/-- Little-endian `u64` encoding of a length field (bincode fixint). -/
def u64le (n : ℕ) : List ℕ :=
  [n % 256, n / 2 ^ 8 % 256, n / 2 ^ 16 % 256, n / 2 ^ 24 % 256,
   n / 2 ^ 32 % 256, n / 2 ^ 40 % 256, n / 2 ^ 48 % 256, n / 2 ^ 56 % 256]

/-- `bincode::serialize` of `LogEntry<Vec<u8>, Vec<u8>>`. -/
def serializeEntry (e : LogEntry) : List ℕ :=
  u64le e.k.length ++ e.k ++
    (match e.v with
     | none => [0]
     | some v => 1 :: (u64le v.length ++ v))

/-- `bincode::deserialize_from` of `LogEntry<Vec<u8>, Vec<u8>>`: reads the
key length, the key bytes, the `Option` tag and, for `Some`, the value
length and bytes; fails (`none`) when the input is too short or the tag is
invalid.  Trailing bytes are ignored, as with a cursor. -/
def deserializeEntry (data : List ℕ) : Option LogEntry :=
  if data.length < 8 then none
  else if (data.drop 8).length < decodeLE (data.take 8) then none
  else
    match (data.drop 8).drop (decodeLE (data.take 8)) with
    | [] => none
    | t :: r3 =>
      if t = 0 then some ⟨(data.drop 8).take (decodeLE (data.take 8)), none⟩
      else if t = 1 then
        if r3.length < 8 then none
        else if (r3.drop 8).length < decodeLE (r3.take 8) then none
        else some ⟨(data.drop 8).take (decodeLE (data.take 8)),
          some ((r3.drop 8).take (decodeLE (r3.take 8)))⟩
      else none

/-- One WAL record: `record_len(varint) | record_bytes`. -/
def encodeRecord (e : LogEntry) : List ℕ :=
  varintEnc (serializeEntry e).length ++ serializeEntry e

/-- A segment file holding the given records in order. -/
def flattenRecords (es : List LogEntry) : List ℕ :=
  (es.map encodeRecord).flatten

/-- Both length fields of an entry fit in the `u64` bincode writes. -/
def wfEntry (e : LogEntry) : Prop :=
  e.k.length < 2 ^ 64 ∧
    match e.v with
    | none => True
    | some v => v.length < 2 ^ 64

theorem varintDec_ge_one : ∀ (l : List ℕ) (v c : ℕ),
    varintDec l = some (v, c) → 1 ≤ c := by
  intro l
  induction l with
  | nil => intro v c h; simp [varintDec] at h
  | cons b rest ih =>
    intro v c h
    rw [varintDec] at h
    by_cases hb : b < 128
    · rw [if_pos hb] at h
      cases h
      exact le_refl 1
    · rw [if_neg hb] at h
      cases hrec : varintDec rest with
      | none => rw [hrec] at h; cases h
      | some p =>
        rw [hrec] at h
        cases p with
        | mk v' c' =>
          simp at h
          omega

theorem varintDec_enc (n : ℕ) :
    ∀ rest : List ℕ,
      varintDec (varintEnc n ++ rest) = some (n, (varintEnc n).length) := by
  induction n using Nat.strong_induction_on with
  | _ n ih =>
    intro rest
    rw [varintEnc]
    by_cases h : n < 128
    · rw [if_pos h]
      simp [varintDec, h]
    · rw [if_neg h]
      simp only [List.cons_append, varintDec]
      rw [if_neg (by omega : ¬ n % 128 + 128 < 128), List.append_eq]
      rw [ih (n / 128) (Nat.div_lt_self (by omega) (by omega)) rest]
      simp only [List.length_cons, Option.some.injEq, Prod.mk.injEq]
      exact ⟨by rw [Nat.add_mod_right]; omega, trivial⟩

theorem varintDec_enc_take (n j : ℕ) (hj0 : 0 < j)
    (hjlt : j < (varintEnc n).length) :
    varintDec ((varintEnc n).take j) = none := by
  induction n using Nat.strong_induction_on generalizing j with
  | _ n ih =>
    rw [varintEnc] at hjlt ⊢
    by_cases h : n < 128
    · rw [if_pos h] at hjlt
      simp at hjlt
      omega
    · rw [if_neg h] at hjlt ⊢
      cases j with
      | zero => omega
      | succ j' =>
        rw [List.take_succ_cons, varintDec]
        rw [if_neg (by omega : ¬ n % 128 + 128 < 128)]
        by_cases hj' : j' = 0
        · subst hj'
          simp [varintDec]
        · rw [ih (n / 128) (Nat.div_lt_self (by omega) (by omega)) j' (by omega)
            (by simp at hjlt; omega)]

theorem decodeLE_u64le (n : ℕ) (h : n < 2 ^ 64) : decodeLE (u64le n) = n := by
  simp only [u64le, decodeLE]
  omega

theorem take_pre {α : Type} (l₁ l₂ : List α) (n : ℕ) (h : n = l₁.length) :
    (l₁ ++ l₂).take n = l₁ := by
  subst h
  exact List.take_left l₁ l₂

theorem drop_pre {α : Type} (l₁ l₂ : List α) (n : ℕ) (h : n = l₁.length) :
    (l₁ ++ l₂).drop n = l₂ := by
  subst h
  exact List.drop_left l₁ l₂

theorem length_u64le (n : ℕ) : (u64le n).length = 8 := rfl

theorem deserializeEntry_serialize (e : LogEntry) (hwf : wfEntry e) :
    deserializeEntry (serializeEntry e) = some e := by
  obtain ⟨k, v⟩ := e
  obtain ⟨hk, hv⟩ := hwf
  simp only at hk hv
  cases v with
  | none =>
    show deserializeEntry (u64le k.length ++ k ++ [0]) = some ⟨k, none⟩
    rw [deserializeEntry, List.append_assoc,
      take_pre _ _ 8 (length_u64le _).symm, drop_pre _ _ 8 (length_u64le _).symm,
      decodeLE_u64le _ hk,
      take_pre _ _ k.length rfl, drop_pre _ _ k.length rfl,
      if_neg (by simp only [List.length_append, List.length_cons, length_u64le]; omega),
      if_neg (by simp only [List.length_append, List.length_cons, length_u64le]; omega)]
    rfl
  | some v =>
    show deserializeEntry (u64le k.length ++ k ++ (1 :: (u64le v.length ++ v)))
        = some ⟨k, some v⟩
    rw [deserializeEntry, List.append_assoc,
      take_pre _ _ 8 (length_u64le _).symm, drop_pre _ _ 8 (length_u64le _).symm,
      decodeLE_u64le _ hk,
      take_pre _ _ k.length rfl, drop_pre _ _ k.length rfl,
      if_neg (by simp only [List.length_append, List.length_cons, length_u64le]; omega),
      if_neg (by simp only [List.length_append, List.length_cons, length_u64le]; omega)]
    simp only
    rw [take_pre _ _ 8 (length_u64le _).symm, drop_pre _ _ 8 (length_u64le _).symm,
      decodeLE_u64le _ hv, List.take_length]
    simp [length_u64le]

theorem deserializeEntry_take_serialize (e : LogEntry) (hwf : wfEntry e)
    (m : ℕ) (hm : m < (serializeEntry e).length) :
    deserializeEntry ((serializeEntry e).take m) = none := by
  obtain ⟨k, v⟩ := e
  obtain ⟨hk, hv⟩ := hwf
  simp only at hk hv
  cases v with
  | none =>
    have hslen : (serializeEntry ⟨k, none⟩).length = 8 + k.length + 1 := by
      show (u64le k.length ++ k ++ [0]).length = 8 + k.length + 1
      simp [length_u64le]
      omega
    rw [hslen] at hm
    show deserializeEntry ((u64le k.length ++ k ++ [0]).take m) = none
    rw [List.append_assoc]
    by_cases h8 : m < 8
    · rw [deserializeEntry, if_pos (by
        rw [List.length_take]
        simp only [List.length_append, List.length_cons, length_u64le]
        omega)]
    · rw [show m = (u64le k.length).length + (m - 8) by rw [length_u64le]; omega,
        List.take_append]
      rw [deserializeEntry,
        if_neg (by simp only [List.length_append, length_u64le]; omega),
        take_pre _ _ 8 (length_u64le _).symm,
        drop_pre _ _ 8 (length_u64le _).symm,
        decodeLE_u64le _ hk]
      by_cases hkl : m - 8 < k.length
      · rw [if_pos (by
          rw [List.length_take]
          simp only [List.length_append, List.length_cons]
          omega)]
      · rw [show m - 8 = k.length + (m - 8 - k.length) by omega, List.take_append]
        have hm0 : m - 8 - k.length = 0 := by omega
        rw [hm0]
        rw [if_neg (by simp), drop_pre _ _ k.length rfl]
        rfl
  | some v =>
    have hslen : (serializeEntry ⟨k, some v⟩).length
        = 8 + k.length + 1 + 8 + v.length := by
      show (u64le k.length ++ k ++ (1 :: (u64le v.length ++ v))).length
          = 8 + k.length + 1 + 8 + v.length
      simp [length_u64le]
      omega
    rw [hslen] at hm
    show deserializeEntry
      ((u64le k.length ++ k ++ (1 :: (u64le v.length ++ v))).take m) = none
    rw [List.append_assoc]
    by_cases h8 : m < 8
    · rw [deserializeEntry, if_pos (by
        rw [List.length_take]
        simp only [List.length_append, List.length_cons, length_u64le]
        omega)]
    · rw [show m = (u64le k.length).length + (m - 8) by rw [length_u64le]; omega,
        List.take_append]
      rw [deserializeEntry,
        if_neg (by simp only [List.length_append, length_u64le]; omega),
        take_pre _ _ 8 (length_u64le _).symm,
        drop_pre _ _ 8 (length_u64le _).symm,
        decodeLE_u64le _ hk]
      by_cases hkl : m - 8 < k.length
      · rw [if_pos (by
          rw [List.length_take]
          simp only [List.length_append, List.length_cons, length_u64le]
          omega)]
      · rw [show m - 8 = k.length + (m - 8 - k.length) by omega, List.take_append]
        rw [if_neg (by
          simp only [List.length_append, List.length_take, List.length_cons,
            length_u64le]
          omega)]
        rw [drop_pre _ _ k.length rfl, take_pre _ _ k.length rfl]
        by_cases hm1 : m - 8 - k.length = 0
        · rw [hm1]
          rfl
        · rw [show m - 8 - k.length = (m - 8 - k.length - 1) + 1 by omega,
            List.take_succ_cons]
          simp only
          rw [if_neg (by decide : ¬ (1 : ℕ) = 0), if_pos trivial]
          by_cases hv8 : m - 8 - k.length - 1 < 8
          · rw [if_pos (by
              rw [List.length_take]
              simp only [List.length_append, length_u64le]
              omega)]
          · rw [show m - 8 - k.length - 1 = (u64le v.length).length
                + (m - 8 - k.length - 1 - 8) by rw [length_u64le]; omega,
              List.take_append]
            rw [if_neg (by simp only [List.length_append, length_u64le]; omega),
              take_pre _ _ 8 (length_u64le _).symm,
              drop_pre _ _ 8 (length_u64le _).symm,
              decodeLE_u64le _ hv]
            rw [if_pos (by rw [List.length_take]; omega)]

/-- The full run of `WALSegIter` over a segment file from a byte offset:
the entries yielded, and `none` when iteration ended normally at end of
file, or `some msg` when the iterator panicked (`expect`) — on a truncated
length varint, or on a record body whose deserialization failed after a
short read.  Each step seeks to `offset`, reads the length varint, reads
`min(size, remaining)` body bytes, deserializes, and advances `offset` to
the varint end plus the bytes actually read. -/
def segIterFrom (file : List ℕ) (off : ℕ) : List LogEntry × Option String :=
  if _h : off < file.length then
    match hv : varintDec (file.drop off) with
    | none => ([], some "read varint from wal file error")
    | some (size, c) =>
      match deserializeEntry ((file.drop (off + c)).take size) with
      | none => ([], some "deserialize from wal file error")
      | some e =>
        (e :: (segIterFrom file
          (off + c + ((file.drop (off + c)).take size).length)).1,
         (segIterFrom file
          (off + c + ((file.drop (off + c)).take size).length)).2)
  else ([], none)
termination_by file.length - off
decreasing_by
  all_goals
    have hc := varintDec_ge_one _ _ _ hv
    omega

theorem segIterFrom_nil (off : ℕ) : segIterFrom [] off = ([], none) := by
  rw [segIterFrom]
  simp

theorem segIterFrom_eq_varint_err (file : List ℕ) (off : ℕ)
    (h : off < file.length) (hv : varintDec (file.drop off) = none) :
    segIterFrom file off = ([], some "read varint from wal file error") := by
  rw [segIterFrom, dif_pos h]
  split
  · rfl
  · next size c heq =>
    rw [hv] at heq
    cases heq

theorem segIterFrom_eq_deser_err (file : List ℕ) (off size c : ℕ)
    (h : off < file.length) (hv : varintDec (file.drop off) = some (size, c))
    (hd : deserializeEntry ((file.drop (off + c)).take size) = none) :
    segIterFrom file off = ([], some "deserialize from wal file error") := by
  rw [segIterFrom, dif_pos h]
  split
  · next heq =>
    rw [hv] at heq
    cases heq
  · next size' c' heq =>
    rw [hv] at heq
    injection Option.some.inj heq with h1 h2
    subst h1
    subst h2
    rw [hd]

theorem segIterFrom_eq_entry (file : List ℕ) (off size c : ℕ) (e : LogEntry)
    (h : off < file.length) (hv : varintDec (file.drop off) = some (size, c))
    (hd : deserializeEntry ((file.drop (off + c)).take size) = some e) :
    segIterFrom file off =
      (e :: (segIterFrom file
          (off + c + ((file.drop (off + c)).take size).length)).1,
       (segIterFrom file
          (off + c + ((file.drop (off + c)).take size).length)).2) := by
  rw [segIterFrom, dif_pos h]
  split
  · next heq =>
    rw [hv] at heq
    cases heq
  · next size' c' heq =>
    rw [hv] at heq
    injection Option.some.inj heq with h1 h2
    subst h1
    subst h2
    rw [hd]

theorem segIterFrom_end (file : List ℕ) (off : ℕ) (h : file.length ≤ off) :
    segIterFrom file off = ([], none) := by
  rw [segIterFrom, dif_neg (by omega)]

theorem segIterFrom_shift (pre l : List ℕ) :
    ∀ n off, l.length - off = n →
      segIterFrom (pre ++ l) (pre.length + off) = segIterFrom l off := by
  intro n
  induction n using Nat.strong_induction_on with
  | _ n ih =>
    intro off hn
    by_cases hoff : off < l.length
    · have hlen : pre.length + off < (pre ++ l).length := by
        simp only [List.length_append]
        omega
      cases hv : varintDec (l.drop off) with
      | none =>
        rw [segIterFrom_eq_varint_err (pre ++ l) _ hlen
            (by rw [List.drop_append]; exact hv),
          segIterFrom_eq_varint_err l off hoff hv]
      | some p =>
        cases p with
        | mk size c =>
          have hc := varintDec_ge_one _ _ _ hv
          have e1 : pre.length + off + c = pre.length + (off + c) := by omega
          cases hd : deserializeEntry ((l.drop (off + c)).take size) with
          | none =>
            rw [segIterFrom_eq_deser_err (pre ++ l) _ size c hlen
                (by rw [List.drop_append]; exact hv)
                (by rw [e1, List.drop_append]; exact hd),
              segIterFrom_eq_deser_err l off size c hoff hv hd]
          | some e =>
            rw [segIterFrom_eq_entry (pre ++ l) _ size c e hlen
                (by rw [List.drop_append]; exact hv)
                (by rw [e1, List.drop_append]; exact hd),
              segIterFrom_eq_entry l off size c e hoff hv hd]
            rw [e1, List.drop_append]
            have e2 : pre.length + (off + c)
                + ((l.drop (off + c)).take size).length
                = pre.length
                  + (off + c + ((l.drop (off + c)).take size).length) := by
              omega
            rw [e2, ih (l.length
                - (off + c + ((l.drop (off + c)).take size).length))
              (by omega) _ rfl]
    · rw [segIterFrom_end (pre ++ l) _
          (by simp only [List.length_append]; omega),
        segIterFrom_end l off (by omega)]

theorem length_encodeRecord_pos (e : LogEntry) : 0 < (encodeRecord e).length := by
  rw [encodeRecord]
  simp only [List.length_append]
  rw [varintEnc]
  by_cases h : (serializeEntry e).length < 128 <;> simp [h]

theorem segIterFrom_record (e : LogEntry) (hwf : wfEntry e) (rest : List ℕ) :
    segIterFrom (encodeRecord e ++ rest) 0 =
      (e :: (segIterFrom rest 0).1, (segIterFrom rest 0).2) := by
  have hv : varintDec ((encodeRecord e ++ rest).drop 0)
      = some ((serializeEntry e).length,
          (varintEnc (serializeEntry e).length).length) := by
    show varintDec (encodeRecord e ++ rest) = _
    rw [encodeRecord, List.append_assoc]
    exact varintDec_enc _ _
  have hdata : ((encodeRecord e ++ rest).drop
        (0 + (varintEnc (serializeEntry e).length).length)).take
        (serializeEntry e).length = serializeEntry e := by
    rw [Nat.zero_add, encodeRecord, List.append_assoc,
      drop_pre _ _ _ rfl, take_pre _ _ _ rfl]
  rw [segIterFrom_eq_entry (encodeRecord e ++ rest) 0
      (serializeEntry e).length (varintEnc (serializeEntry e).length).length e
      (by simp only [List.length_append]
          have := length_encodeRecord_pos e
          omega)
      hv
      (by rw [hdata]; exact deserializeEntry_serialize e hwf)]
  rw [hdata]
  have e3 : 0 + (varintEnc (serializeEntry e).length).length
      + (serializeEntry e).length = (encodeRecord e).length + 0 := by
    rw [encodeRecord]
    simp only [List.length_append]
    omega
  rw [e3, segIterFrom_shift (encodeRecord e) rest (rest.length - 0) 0 rfl]

theorem segIterFrom_records (es : List LogEntry) (hwf : ∀ e ∈ es, wfEntry e)
    (tail : List ℕ) :
    segIterFrom (flattenRecords es ++ tail) 0 =
      (es ++ (segIterFrom tail 0).1, (segIterFrom tail 0).2) := by
  induction es with
  | nil =>
    rw [flattenRecords]
    simp
  | cons e rest ih =>
    have h1 : flattenRecords (e :: rest) ++ tail
        = encodeRecord e ++ (flattenRecords rest ++ tail) := by
      rw [flattenRecords, List.map_cons, List.flatten_cons, List.append_assoc]
      rfl
    rw [h1, segIterFrom_record e (hwf e (by simp)) _,
      ih (fun x hx => hwf x (List.mem_cons_of_mem e hx))]
    simp

theorem segIterFrom_partial_record (e : LogEntry) (hwf : wfEntry e) (j : ℕ)
    (hj0 : 0 < j) (hjlt : j < (encodeRecord e).length) :
    (segIterFrom ((encodeRecord e).take j) 0).1 = []
    ∧ ((segIterFrom ((encodeRecord e).take j) 0).2).isSome = true := by
  have hreclen : (encodeRecord e).length
      = (varintEnc (serializeEntry e).length).length
        + (serializeEntry e).length := by
    rw [encodeRecord]
    simp
  have htaillen : ((encodeRecord e).take j).length = j := by
    rw [List.length_take]
    omega
  by_cases hjv : j < (varintEnc (serializeEntry e).length).length
  · have htail : (encodeRecord e).take j
        = (varintEnc (serializeEntry e).length).take j := by
      rw [encodeRecord]
      exact List.take_append_of_le_length (by omega)
    rw [segIterFrom_eq_varint_err _ 0 (by omega)
      (by rw [List.drop_zero, htail]
          exact varintDec_enc_take _ j hj0 hjv)]
    exact ⟨rfl, rfl⟩
  · have htail : (encodeRecord e).take j
        = varintEnc (serializeEntry e).length
          ++ (serializeEntry e).take (j - (varintEnc (serializeEntry e).length).length) := by
      rw [encodeRecord,
        show j = (varintEnc (serializeEntry e).length).length
          + (j - (varintEnc (serializeEntry e).length).length) by omega,
        List.take_append]
      congr 2
      omega
    have hdata : (((encodeRecord e).take j).drop
          (0 + (varintEnc (serializeEntry e).length).length)).take
          (serializeEntry e).length
        = (serializeEntry e).take
            (j - (varintEnc (serializeEntry e).length).length) := by
      rw [Nat.zero_add, htail, drop_pre _ _ _ rfl, List.take_take]
      congr 1
      omega
    rw [segIterFrom_eq_deser_err _ 0 (serializeEntry e).length
        (varintEnc (serializeEntry e).length).length (by omega)
        (by rw [List.drop_zero, htail]; exact varintDec_enc _ _)
        (by rw [hdata]
            exact deserializeEntry_take_serialize e hwf _ (by omega))]
    exact ⟨rfl, rfl⟩

/-- `WALSeg` as the claims see it: the segment file's bytes, the open file's
cursor, and the deleted flag.  `WALSeg::new` opens with
`read(true).write(true).create(true)` — no append mode — so the cursor of a
newly opened handle is at offset 0 even when the file already has content. -/
structure WALSeg where
  contents : List ℕ
  pos : ℕ
  deleted_ : Bool

/-- `WALSeg::new` on a fresh (empty or nonexistent) segment file. -/
def WALSeg.newEmpty : WALSeg := ⟨[], 0, false⟩

/-- `WALSeg::new` on an existing segment file: contents kept, cursor at 0. -/
def WALSeg.newExisting (bytes : List ℕ) : WALSeg := ⟨bytes, 0, false⟩

/-- `WALSeg::append`: `write_varint(buf.len())` then `write(&buf)` then
`sync_data()`.  The bytes land at the cursor, overwriting whatever is
there. -/
def WALSeg.append (seg : WALSeg) (e : LogEntry) : WALSeg :=
  ⟨seg.contents.take seg.pos ++ encodeRecord e
      ++ seg.contents.drop (seg.pos + (encodeRecord e).length),
   seg.pos + (encodeRecord e).length,
   seg.deleted_⟩

/-- `WALSeg::iter`: a fresh `WALSegIter` over the segment file, run to
completion. -/
def WALSeg.iterAll (seg : WALSeg) : List LogEntry × Option String :=
  segIterFrom seg.contents 0

/-- The `WAL` object: the open segments (oldest first) and the counter used
to name new segment files. -/
structure WAL where
  segs : List WALSeg
  current_file_num : ℕ

/-- `WAL::new` over the lexicographically sorted existing `*.wal` files:
each is reopened via `WALSeg::new` (cursor at 0) and `current_file_num`
restarts at 0. -/
def WAL.reopen (files : List (List ℕ)) : WAL :=
  ⟨files.map WALSeg.newExisting, 0⟩

/-- `WAL::append`: create a segment first if there is none, then append to
the last segment. -/
def WAL.append (w : WAL) (e : LogEntry) : WAL :=
  if w.segs.isEmpty then
    ⟨[WALSeg.append WALSeg.newEmpty e], w.current_file_num + 1⟩
  else
    ⟨w.segs.set (w.segs.length - 1)
      (WALSeg.append (w.segs.getD (w.segs.length - 1) WALSeg.newEmpty) e),
     w.current_file_num⟩

/-- The full run of the replay iterator `WALIter`: segments in order,
skipping deleted ones; a panic inside a segment iterator aborts the
iteration. -/
def replaySegs : List WALSeg → List LogEntry × Option String
  | [] => ([], none)
  | s :: rest =>
    if s.deleted_ then replaySegs rest
    else
      match s.iterAll with
      | (es, some msg) => (es, some msg)
      | (es, none) => (es ++ (replaySegs rest).1, (replaySegs rest).2)

def WAL.replay (w : WAL) : List LogEntry × Option String :=
  replaySegs w.segs

theorem walseg_append_contents : ∀ (es : List LogEntry) (seg : WALSeg),
    seg.pos = seg.contents.length →
    (es.foldl WALSeg.append seg).contents = seg.contents ++ flattenRecords es
    ∧ (es.foldl WALSeg.append seg).pos
        = (es.foldl WALSeg.append seg).contents.length := by
  intro es
  induction es with
  | nil =>
    intro seg h
    exact ⟨by simp [flattenRecords], h⟩
  | cons e rest ih =>
    intro seg h
    have hstep : (WALSeg.append seg e).contents
        = seg.contents ++ encodeRecord e := by
      rw [WALSeg.append]
      simp only [h, List.take_length]
      rw [List.drop_eq_nil_of_le (by simp), List.append_nil]
    have hpos : (WALSeg.append seg e).pos
        = (WALSeg.append seg e).contents.length := by
      show seg.pos + (encodeRecord e).length = _
      rw [hstep, List.length_append, h]
    obtain ⟨h1, h2⟩ := ih (WALSeg.append seg e) hpos
    refine ⟨?_, h2⟩
    rw [List.foldl_cons]
    rw [h1, hstep, List.append_assoc]
    simp [flattenRecords]

/-- Claim C6: appending a sequence of entries to a fresh (empty) WAL segment
stores each record as a length varint followed by the bincode-serialized
entry, and the segment iterator yields back exactly that sequence, ending
normally. -/
theorem wal_seg_append_replay_roundtrip (es : List LogEntry)
    (hwf : ∀ e ∈ es, wfEntry e) :
    (es.foldl WALSeg.append WALSeg.newEmpty).contents = flattenRecords es
    ∧ (es.foldl WALSeg.append WALSeg.newEmpty).iterAll = (es, none) := by
  obtain ⟨h1, -⟩ := walseg_append_contents es WALSeg.newEmpty rfl
  have h1' : (es.foldl WALSeg.append WALSeg.newEmpty).contents
      = flattenRecords es := by simpa using h1
  refine ⟨h1', ?_⟩
  rw [WALSeg.iterAll, h1', ← List.append_nil (flattenRecords es),
    segIterFrom_records es hwf [], segIterFrom_nil]
  simp

def c6E1 : LogEntry := ⟨[97], some [98]⟩

def c6E2 : LogEntry := ⟨[99], none⟩

/-- Witness for C6 with two concrete entries. -/
theorem wal_seg_append_replay_roundtrip_witness :
    (∀ e ∈ [c6E1, c6E2], wfEntry e)
    ∧ ([c6E1, c6E2].foldl WALSeg.append WALSeg.newEmpty).contents
        = flattenRecords [c6E1, c6E2]
    ∧ ([c6E1, c6E2].foldl WALSeg.append WALSeg.newEmpty).iterAll
        = ([c6E1, c6E2], none) := by
  have hwf : ∀ e ∈ [c6E1, c6E2], wfEntry e := by
    intro e he
    rcases List.mem_cons.mp he with rfl | he2
    · exact ⟨show (1 : ℕ) < 2 ^ 64 by norm_num,
        show (1 : ℕ) < 2 ^ 64 by norm_num⟩
    · rcases List.mem_cons.mp he2 with rfl | he3
      · exact ⟨show (1 : ℕ) < 2 ^ 64 by norm_num, trivial⟩
      · simp at he3
  obtain ⟨h1, h2⟩ := wal_seg_append_replay_roundtrip [c6E1, c6E2] hwf
  exact ⟨hwf, h1, h2⟩

/-- Claim C4, amended: a WAL segment holding complete records followed by a
partial tail record (its length varint or its record body truncated) makes
the replay iterator yield exactly the preceding complete entries and then
panic (model: a `some` error message) at the partial record, instead of
dropping it and returning normally. -/
theorem wal_seg_partial_tail_panics (es : List LogEntry)
    (hwf : ∀ e ∈ es, wfEntry e) (e : LogEntry) (he : wfEntry e) (j : ℕ)
    (hj0 : 0 < j) (hjlt : j < (encodeRecord e).length) :
    ((WALSeg.newExisting
        (flattenRecords es ++ (encodeRecord e).take j)).iterAll).1 = es
    ∧ (((WALSeg.newExisting
        (flattenRecords es ++ (encodeRecord e).take j)).iterAll).2).isSome
        = true := by
  show (segIterFrom (flattenRecords es ++ (encodeRecord e).take j) 0).1 = es
    ∧ ((segIterFrom (flattenRecords es ++ (encodeRecord e).take j) 0).2).isSome
        = true
  rw [segIterFrom_records es hwf _]
  obtain ⟨h1, h2⟩ := segIterFrom_partial_record e he j hj0 hjlt
  exact ⟨by simp [h1], by simpa using h2⟩

def c4E1 : LogEntry := ⟨[97], some [98]⟩

def c4E2 : LogEntry := ⟨[99], some [100]⟩

theorem serializeEntry_c4E2 :
    serializeEntry c4E2 = [1, 0, 0, 0, 0, 0, 0, 0, 99, 1, 1, 0, 0, 0, 0, 0, 0, 0, 100] :=
  rfl

theorem length_encodeRecord_c4E2 : (encodeRecord c4E2).length = 20 := by
  rw [encodeRecord, List.length_append, serializeEntry_c4E2]
  rw [show ([1, 0, 0, 0, 0, 0, 0, 0, 99, 1, 1, 0, 0, 0, 0, 0, 0, 0, 100] : List ℕ).length
      = 19 from rfl]
  rw [varintEnc]
  norm_num

theorem wfEntry_c4E1 : wfEntry c4E1 :=
  ⟨show (1 : ℕ) < 2 ^ 64 by norm_num, show (1 : ℕ) < 2 ^ 64 by norm_num⟩

theorem wfEntry_c4E2 : wfEntry c4E2 :=
  ⟨show (1 : ℕ) < 2 ^ 64 by norm_num, show (1 : ℕ) < 2 ^ 64 by norm_num⟩

/-- Counterexample to C4 as stated: on a segment holding one complete record
followed by a 10-byte partial tail, the iterator does NOT return the
preceding entries with a normal end — it panics. -/
theorem wal_seg_partial_tail_counterexample :
    (WALSeg.newExisting
        (flattenRecords [c4E1] ++ (encodeRecord c4E2).take 10)).iterAll
      ≠ ([c4E1], (none : Option String)) := by
  intro hcontra
  have hrec := segIterFrom_records [c4E1]
    (by intro x hx
        rcases List.mem_cons.mp hx with rfl | hx2
        · exact wfEntry_c4E1
        · simp at hx2)
    ((encodeRecord c4E2).take 10)
  have hp := segIterFrom_partial_record c4E2 wfEntry_c4E2 10 (by norm_num)
    (by rw [length_encodeRecord_c4E2]; norm_num)
  have h2 : ((WALSeg.newExisting
      (flattenRecords [c4E1] ++ (encodeRecord c4E2).take 10)).iterAll).2
      = (segIterFrom ((encodeRecord c4E2).take 10) 0).2 := by
    show (segIterFrom (flattenRecords [c4E1] ++ (encodeRecord c4E2).take 10) 0).2
      = _
    rw [hrec]
  rw [hcontra] at h2
  rw [← h2] at hp
  simp at hp

/-- Witness for the amended C4 at the same concrete segment. -/
theorem wal_seg_partial_tail_panics_witness :
    ((∀ x ∈ [c4E1], wfEntry x) ∧ wfEntry c4E2 ∧ 0 < 10
      ∧ 10 < (encodeRecord c4E2).length)
    ∧ ((WALSeg.newExisting
        (flattenRecords [c4E1] ++ (encodeRecord c4E2).take 10)).iterAll).1
        = [c4E1]
    ∧ (((WALSeg.newExisting
        (flattenRecords [c4E1] ++ (encodeRecord c4E2).take 10)).iterAll).2).isSome
        = true := by
  have hwf1 : ∀ x ∈ [c4E1], wfEntry x := by
    intro x hx
    rcases List.mem_cons.mp hx with rfl | hx2
    · exact wfEntry_c4E1
    · simp at hx2
  have hlen : 10 < (encodeRecord c4E2).length := by
    rw [length_encodeRecord_c4E2]
    norm_num
  obtain ⟨h1, h2⟩ := wal_seg_partial_tail_panics [c4E1] hwf1 c4E2 wfEntry_c4E2
    10 (by norm_num) hlen
  exact ⟨⟨hwf1, wfEntry_c4E2, by norm_num, hlen⟩, h1, h2⟩

def c3E1 : LogEntry := ⟨[97], some [98]⟩

def c3E2 : LogEntry := ⟨[99], some [100]⟩

theorem length_encodeRecord_c3E1 : (encodeRecord c3E1).length = 20 := by
  rw [encodeRecord, List.length_append,
    show serializeEntry c3E1
      = [1, 0, 0, 0, 0, 0, 0, 0, 97, 1, 1, 0, 0, 0, 0, 0, 0, 0, 98] from rfl]
  rw [show ([1, 0, 0, 0, 0, 0, 0, 0, 97, 1, 1, 0, 0, 0, 0, 0, 0, 0, 98] : List ℕ).length
      = 19 from rfl]
  rw [varintEnc]
  norm_num

theorem wfEntry_c3E2 : wfEntry c3E2 :=
  ⟨show (1 : ℕ) < 2 ^ 64 by norm_num, show (1 : ℕ) < 2 ^ 64 by norm_num⟩

theorem length_encodeRecord_c3E2 : (encodeRecord c3E2).length = 20 := by
  rw [encodeRecord, List.length_append,
    show serializeEntry c3E2
      = [1, 0, 0, 0, 0, 0, 0, 0, 99, 1, 1, 0, 0, 0, 0, 0, 0, 0, 100] from rfl]
  rw [show ([1, 0, 0, 0, 0, 0, 0, 0, 99, 1, 1, 0, 0, 0, 0, 0, 0, 0, 100] : List ℕ).length
      = 19 from rfl]
  rw [varintEnc]
  norm_num

/-- Claim C3, against the code: `WALSeg::new` opens segment files without
append mode, leaving the cursor at offset 0, so the first `append` after a
`WAL::new` reopen overwrites the oldest record of the last segment instead
of appending after it.  With one durable record `(k=[97], v=Some [98])` on
disk, appending `(k=[99], v=Some [100])` (a record of the same 20-byte
length) makes the replay iterator yield only the new entry: the durably
appended first entry has been destroyed, contradicting the claim that
replay produces the entries appended before and after the reopen, in commit
order. -/
theorem wal_reopen_append_overwrites :
    ((WAL.reopen [encodeRecord c3E1]).append c3E2).replay
      = ([c3E2], (none : Option String))
    ∧ c3E1 ≠ c3E2 := by
  constructor
  · have hseg : ((WAL.reopen [encodeRecord c3E1]).append c3E2).segs
        = [⟨encodeRecord c3E2, (encodeRecord c3E2).length, false⟩] := by
      rw [WAL.reopen, WAL.append]
      rw [if_neg (by simp)]
      simp only [List.map_cons, List.map_nil, List.length_cons,
        List.length_nil, Nat.add_sub_cancel, Nat.sub_self, List.getD,
        List.get?_cons_zero, Option.getD_some, List.set_cons_zero]
      rw [WALSeg.append]
      simp only [WALSeg.newExisting, List.take_zero, List.nil_append,
        Nat.zero_add]
      rw [List.drop_eq_nil_of_le (by
        rw [length_encodeRecord_c3E1, length_encodeRecord_c3E2]),
        List.append_nil]
    rw [WAL.replay, hseg, replaySegs]
    rw [if_neg (by simp)]
    have hiter : (WALSeg.iterAll
        ⟨encodeRecord c3E2, (encodeRecord c3E2).length, false⟩)
        = ([c3E2], none) := by
      rw [WALSeg.iterAll]
      show segIterFrom (encodeRecord c3E2) 0 = _
      rw [← List.append_nil (encodeRecord c3E2),
        segIterFrom_record c3E2 wfEntry_c3E2 [], segIterFrom_nil]
    rw [hiter]
    simp [replaySegs]
  · intro h
    have hk : c3E1.k = c3E2.k := by rw [h]
    simp [c3E1, c3E2] at hk

/-! ## C5: block frame checksum (`block.rs`)

`Block::new_from_location` reads the stored frame
`block_payload | ctype(u8) | masked_crc32c(u32le)`, verifies the CRC32C
(Castagnoli) of `payload || ctype` against the unmasked stored value, and
only then decodes.  The `crc` crate and the mask/unmask helpers of the
missing `util.rs` are modelled from the spec; the Snappy decoder of the
external `snap` crate stays an opaque parameter. -/

/-- Modelled from the spec: one bit step of the reflected CRC32C
(Castagnoli) computation — shift right, conditionally XOR the reversed
polynomial `0x82F63B78`. -/
def crcBitStep (s : ℕ) : ℕ :=
  if s % 2 = 1 then (s / 2) ^^^ 0x82F63B78 else s / 2

/-- Modelled from the spec: the CRC32C state update for one input byte —
XOR the byte into the low bits, then eight bit steps. -/
def crcByteStep (s b : ℕ) : ℕ :=
  crcBitStep^[8] (s ^^^ b)

def crcUpdate (s : ℕ) (data : List ℕ) : ℕ :=
  data.foldl crcByteStep s

/-- Modelled from the spec: CRC32C (Castagnoli) over a byte string, with the
standard `0xFFFFFFFF` initial value and final complement — the checksum the
`crc` crate's `crc32::Digest::new(crc32::CASTAGNOLI)` computes. -/
def crc32c (data : List ℕ) : ℕ :=
  crcUpdate 0xFFFFFFFF data ^^^ 0xFFFFFFFF

theorem natXor_cancel_right {a b c : ℕ} (h : a ^^^ c = b ^^^ c) : a = b := by
  have h2 := congrArg (fun x => x ^^^ c) h
  simpa [Nat.xor_assoc] using h2

theorem crcBitStep_lt {s : ℕ} (h : s < 2 ^ 32) : crcBitStep s < 2 ^ 32 := by
  rw [crcBitStep]
  by_cases hp : s % 2 = 1
  · rw [if_pos hp]
    exact Nat.xor_lt_two_pow (by omega) (by norm_num)
  · rw [if_neg hp]
    omega

theorem crcBitStep_inj {s1 s2 : ℕ} (h1 : s1 < 2 ^ 32) (h2 : s2 < 2 ^ 32)
    (heq : crcBitStep s1 = crcBitStep s2) : s1 = s2 := by
  rw [crcBitStep, crcBitStep] at heq
  by_cases p1 : s1 % 2 = 1 <;> by_cases p2 : s2 % 2 = 1
  · rw [if_pos p1, if_pos p2] at heq
    have := natXor_cancel_right heq
    omega
  · rw [if_pos p1, if_neg p2] at heq
    have hbit := congrArg (fun x => Nat.testBit x 31) heq
    simp only [Nat.testBit_xor] at hbit
    rw [Nat.testBit_lt_two_pow (show s1 / 2 < 2 ^ 31 by omega),
      Nat.testBit_lt_two_pow (show s2 / 2 < 2 ^ 31 by omega),
      show Nat.testBit 0x82F63B78 31 = true by decide] at hbit
    simp at hbit
  · rw [if_neg p1, if_pos p2] at heq
    have hbit := congrArg (fun x => Nat.testBit x 31) heq
    simp only [Nat.testBit_xor] at hbit
    rw [Nat.testBit_lt_two_pow (show s1 / 2 < 2 ^ 31 by omega),
      Nat.testBit_lt_two_pow (show s2 / 2 < 2 ^ 31 by omega),
      show Nat.testBit 0x82F63B78 31 = true by decide] at hbit
    simp at hbit
  · rw [if_neg p1, if_neg p2] at heq
    omega

theorem crcBitIter_lt (n : ℕ) {s : ℕ} (h : s < 2 ^ 32) :
    crcBitStep^[n] s < 2 ^ 32 := by
  induction n generalizing s with
  | zero => simpa using h
  | succ m ih =>
    rw [Function.iterate_succ_apply]
    exact ih (crcBitStep_lt h)

theorem crcBitIter_inj (n : ℕ) {s1 s2 : ℕ} (h1 : s1 < 2 ^ 32)
    (h2 : s2 < 2 ^ 32) (heq : crcBitStep^[n] s1 = crcBitStep^[n] s2) :
    s1 = s2 := by
  induction n generalizing s1 s2 with
  | zero => simpa using heq
  | succ m ih =>
    rw [Function.iterate_succ_apply, Function.iterate_succ_apply] at heq
    exact crcBitStep_inj h1 h2 (ih (crcBitStep_lt h1) (crcBitStep_lt h2) heq)

theorem crcByteStep_lt {s b : ℕ} (hs : s < 2 ^ 32) (hb : b < 256) :
    crcByteStep s b < 2 ^ 32 :=
  crcBitIter_lt 8 (Nat.xor_lt_two_pow hs (by omega))

theorem crcByteStep_inj_state {b : ℕ} (hb : b < 256) {s1 s2 : ℕ}
    (h1 : s1 < 2 ^ 32) (h2 : s2 < 2 ^ 32)
    (heq : crcByteStep s1 b = crcByteStep s2 b) : s1 = s2 :=
  natXor_cancel_right (crcBitIter_inj 8
    (Nat.xor_lt_two_pow h1 (by omega)) (Nat.xor_lt_two_pow h2 (by omega)) heq)

theorem crcByteStep_ne_byte {s : ℕ} (hs : s < 2 ^ 32) {b1 b2 : ℕ}
    (hb1 : b1 < 256) (hb2 : b2 < 256) (hne : b1 ≠ b2) :
    crcByteStep s b1 ≠ crcByteStep s b2 := by
  intro heq
  have hx : s ^^^ b1 = s ^^^ b2 := crcBitIter_inj 8
    (Nat.xor_lt_two_pow hs (by omega)) (Nat.xor_lt_two_pow hs (by omega)) heq
  have h2 := congrArg (fun x => s ^^^ x) hx
  simp only [Nat.xor_cancel_left] at h2
  exact hne h2

theorem crcUpdate_lt {data : List ℕ} (hdata : ∀ x ∈ data, x < 256) {s : ℕ}
    (hs : s < 2 ^ 32) : crcUpdate s data < 2 ^ 32 := by
  induction data generalizing s with
  | nil => simpa [crcUpdate] using hs
  | cons b rest ih =>
    rw [crcUpdate, List.foldl_cons]
    exact ih (fun x hx => hdata x (List.mem_cons_of_mem b hx))
      (crcByteStep_lt hs (hdata b (by simp)))

theorem crcUpdate_inj {data : List ℕ} (hdata : ∀ x ∈ data, x < 256)
    {s1 s2 : ℕ} (h1 : s1 < 2 ^ 32) (h2 : s2 < 2 ^ 32)
    (heq : crcUpdate s1 data = crcUpdate s2 data) : s1 = s2 := by
  induction data generalizing s1 s2 with
  | nil => simpa [crcUpdate] using heq
  | cons b rest ih =>
    simp only [crcUpdate, List.foldl_cons] at heq
    have hb : b < 256 := hdata b (by simp)
    exact crcByteStep_inj_state hb h1 h2
      (ih (fun x hx => hdata x (List.mem_cons_of_mem b hx))
        (crcByteStep_lt h1 hb) (crcByteStep_lt h2 hb) heq)

/-- CRC32C detects every single-byte change. -/
theorem crc32c_single_byte_change {pre suf : List ℕ} {b1 b2 : ℕ}
    (hpre : ∀ x ∈ pre, x < 256) (hsuf : ∀ x ∈ suf, x < 256)
    (hb1 : b1 < 256) (hb2 : b2 < 256) (hne : b1 ≠ b2) :
    crc32c (pre ++ b1 :: suf) ≠ crc32c (pre ++ b2 :: suf) := by
  intro heq
  have hupd : crcUpdate 0xFFFFFFFF (pre ++ b1 :: suf)
      = crcUpdate 0xFFFFFFFF (pre ++ b2 :: suf) :=
    natXor_cancel_right heq
  simp only [crcUpdate, List.foldl_append, List.foldl_cons] at hupd
  have hs : List.foldl crcByteStep 0xFFFFFFFF pre < 2 ^ 32 := by
    have := crcUpdate_lt hpre (show (0xFFFFFFFF : ℕ) < 2 ^ 32 by norm_num)
    simpa [crcUpdate] using this
  have hstep := crcUpdate_inj hsuf
    (crcByteStep_lt hs hb1) (crcByteStep_lt hs hb2) hupd
  exact crcByteStep_ne_byte hs hb1 hb2 hne hstep

/-- Modelled from the spec: `mask_crc` of the missing `util.rs` — rotate the
CRC right by 15 bits and add the masking constant `0xa282ead8`, in `u32`
wrapping arithmetic. -/
def mask_crc (c : ℕ) : ℕ :=
  (c / 2 ^ 15 + c % 2 ^ 15 * 2 ^ 17 + 0xa282ead8) % 2 ^ 32

/-- Modelled from the spec: `unmask_crc` — subtract the masking constant
(wrapping) and rotate right by 17 bits. -/
def unmask_crc (m : ℕ) : ℕ :=
  (m + 2 ^ 32 - 0xa282ead8) % 2 ^ 32 / 2 ^ 17
    + (m + 2 ^ 32 - 0xa282ead8) % 2 ^ 32 % 2 ^ 17 * 2 ^ 15

theorem unmask_mask (c : ℕ) (h : c < 2 ^ 32) : unmask_crc (mask_crc c) = c := by
  rw [mask_crc, unmask_crc]
  have hrlt : c / 2 ^ 15 + c % 2 ^ 15 * 2 ^ 17 < 2 ^ 32 := by omega
  have h1 : ((c / 2 ^ 15 + c % 2 ^ 15 * 2 ^ 17 + 0xa282ead8) % 2 ^ 32
      + 2 ^ 32 - 0xa282ead8) % 2 ^ 32 = c / 2 ^ 15 + c % 2 ^ 15 * 2 ^ 17 := by
    omega
  rw [h1]
  omega

theorem crc32c_lt {data : List ℕ} (hdata : ∀ x ∈ data, x < 256) :
    crc32c data < 2 ^ 32 :=
  Nat.xor_lt_two_pow (crcUpdate_lt hdata (by norm_num)) (by norm_num)

/-- Little-endian `u32` encoding (`encode_fixed`, written by the block
builder for the masked checksum). -/
def u32le (n : ℕ) : List ℕ :=
  [n % 256, n / 2 ^ 8 % 256, n / 2 ^ 16 % 256, n / 2 ^ 24 % 256]

theorem decodeLE_u32le (n : ℕ) (h : n < 2 ^ 32) : decodeLE (u32le n) = n := by
  simp only [u32le, decodeLE]
  omega

inductive CompressType where
  | nocompression
  | snappy

/-- Modelled from the spec: `int_to_compress_type` of the missing
`options.rs` — `0` is None, `1` is Snappy, anything else unknown. -/
def int_to_compress_type (n : ℕ) : Option CompressType :=
  if n = 0 then some CompressType.nocompression
  else if n = 1 then some CompressType.snappy
  else none

inductive StatusCode where
  | NotFound
  | IOError
  | ChecksumError
  | SnapError
  | CompressError
  | InvalidData
deriving DecidableEq

/-- `Block::verify_block`: the CRC32C digest of `data` equals `want`. -/
def verify_block (data : List ℕ) (want : ℕ) : Bool :=
  crc32c data == want

/-- `Block::new_from_location`, applied to the stored frame bytes `data`
that `reader::read_bytes` returned: split off the 4 checksum bytes, verify
the unmasked CRC over `payload || ctype`, then decode by compression type.
The Snappy decoder of the external `snap` crate is the opaque parameter
`decompress`. -/
def new_from_location (decompress : List ℕ → Option (List ℕ))
    (data : List ℕ) : Except StatusCode (List ℕ) :=
  if verify_block (data.take (data.length - 4))
      (unmask_crc (decodeLE (data.drop (data.length - 4)))) = false then
    Except.error StatusCode.ChecksumError
  else
    match int_to_compress_type (data.getD (data.length - 5) 0) with
    | some CompressType.nocompression =>
        Except.ok (data.take (data.length - 5))
    | some CompressType.snappy =>
        match decompress (data.take (data.length - 5)) with
        | some decoded => Except.ok decoded
        | none => Except.error StatusCode.SnapError
    | none => Except.error StatusCode.InvalidData

/-- Claim C5: for a block frame stored with a valid masked CRC32C checksum,
changing any single byte of the stored payload makes
`Block::new_from_location` return `ChecksumError` — for any compression
type byte and any behavior of the Snappy decoder, so no silently corrupted
block is ever returned. -/
theorem block_frame_single_byte_corruption (decompress : List ℕ → Option (List ℕ))
    (pre suf : List ℕ) (b b' ctype : ℕ)
    (hpre : ∀ x ∈ pre, x < 256) (hsuf : ∀ x ∈ suf, x < 256)
    (hb : b < 256) (hb' : b' < 256) (hne : b' ≠ b) (hct : ctype < 256) :
    new_from_location decompress
      ((pre ++ b' :: suf) ++ [ctype]
        ++ u32le (mask_crc (crc32c ((pre ++ b :: suf) ++ [ctype]))))
      = Except.error StatusCode.ChecksumError := by
  have hframe : (pre ++ b' :: suf) ++ [ctype]
        ++ u32le (mask_crc (crc32c ((pre ++ b :: suf) ++ [ctype])))
      = ((pre ++ b' :: suf) ++ [ctype])
        ++ u32le (mask_crc (crc32c ((pre ++ b :: suf) ++ [ctype]))) := by
    rw [List.append_assoc]
  have hlen4 : (u32le (mask_crc (crc32c ((pre ++ b :: suf) ++ [ctype])))).length
      = 4 := rfl
  have hsub : (((pre ++ b' :: suf) ++ [ctype])
        ++ u32le (mask_crc (crc32c ((pre ++ b :: suf) ++ [ctype])))).length - 4
      = ((pre ++ b' :: suf) ++ [ctype]).length := by
    rw [List.length_append, hlen4]
    omega
  have hmasklt : mask_crc (crc32c ((pre ++ b :: suf) ++ [ctype])) < 2 ^ 32 := by
    rw [mask_crc]
    omega
  have hbytes : ∀ x ∈ (pre ++ b :: suf) ++ [ctype], x < 256 := by
    intro x hx
    rcases List.mem_append.mp hx with hx1 | hx2
    · rcases List.mem_append.mp hx1 with hx3 | hx4
      · exact hpre x hx3
      · rcases List.mem_cons.mp hx4 with rfl | hx5
        · exact hb
        · exact hsuf x hx5
    · rcases List.mem_cons.mp hx2 with rfl | hx6
      · exact hct
      · simp at hx6
  have hver : verify_block
      ((((pre ++ b' :: suf) ++ [ctype])
          ++ u32le (mask_crc (crc32c ((pre ++ b :: suf) ++ [ctype])))).take
        ((((pre ++ b' :: suf) ++ [ctype])
          ++ u32le (mask_crc (crc32c ((pre ++ b :: suf) ++ [ctype])))).length - 4))
      (unmask_crc (decodeLE
        ((((pre ++ b' :: suf) ++ [ctype])
          ++ u32le (mask_crc (crc32c ((pre ++ b :: suf) ++ [ctype])))).drop
          ((((pre ++ b' :: suf) ++ [ctype])
            ++ u32le (mask_crc (crc32c ((pre ++ b :: suf) ++ [ctype])))).length - 4))))
      = false := by
    rw [hsub, take_pre _ _ _ rfl, drop_pre _ _ _ rfl,
      decodeLE_u32le _ hmasklt, unmask_mask _ (crc32c_lt hbytes)]
    rw [verify_block, beq_eq_false_iff_ne]
    have hsplit1 : (pre ++ b' :: suf) ++ [ctype] = pre ++ b' :: (suf ++ [ctype]) := by
      simp
    have hsplit2 : (pre ++ b :: suf) ++ [ctype] = pre ++ b :: (suf ++ [ctype]) := by
      simp
    rw [hsplit1, hsplit2]
    exact crc32c_single_byte_change hpre
      (by intro x hx
          rcases List.mem_append.mp hx with hx1 | hx2
          · exact hsuf x hx1
          · rcases List.mem_cons.mp hx2 with rfl | hx3
            · exact hct
            · simp at hx3)
      hb' hb hne
  rw [hframe, new_from_location, if_pos hver]

/-- Witness for C5: a concrete 3-byte payload whose middle byte is changed
from 2 to 3. -/
theorem block_frame_single_byte_corruption_witness :
    ((∀ x ∈ ([1] : List ℕ), x < 256) ∧ (∀ x ∈ ([4] : List ℕ), x < 256)
      ∧ (2 : ℕ) < 256 ∧ (3 : ℕ) < 256 ∧ (3 : ℕ) ≠ 2 ∧ (0 : ℕ) < 256)
    ∧ new_from_location (fun _ => none)
        (([1] ++ 3 :: [4]) ++ [0]
          ++ u32le (mask_crc (crc32c (([1] ++ 2 :: [4]) ++ [0]))))
        = Except.error StatusCode.ChecksumError :=
  ⟨⟨by decide, by decide, by decide, by decide, by decide, by decide⟩,
    block_frame_single_byte_corruption (fun _ => none) [1] [4] 2 3 0
      (by decide) (by decide) (by decide) (by decide) (by decide) (by decide)⟩
